import Mathlib

/-
Verification of the cc-parser record pipeline (src/main.rs).

Strings are modelled as `List Char`, raw bytes as `List Nat`.  The external
primitives declared out of scope by the design (the WARC container reader, the
URL parser, the HTML DOM construction of html5ever, and the whatlang language
detector) enter the model as explicit parameters or record fields; everything
else is translated directly from src/main.rs.  Unicode character classes
(is_alphanumeric, is_whitespace, to_lowercase, the regex classes \d and \w)
are modelled on the fragment of Unicode exercised by this development:
ASCII plus the Japanese kana and CJK blocks that the program inspects.
-/

set_option maxRecDepth 40000

namespace CcParser

/-! ### Constants (src/main.rs lines 41-64) -/

def MAX_RECORDS_PER_FILE : Nat := 0
def DETECT_PREFIX_CHARS : Nat := 512
def LONG_SENTENCE_LEN : Nat := 100
def NGRAM_SIZE : Nat := 3
def NGRAM_REPEAT_THRESHOLD : Nat := 10
def MONTH_LIST_THRESHOLD : Nat := 5

/-! ### Character classes -/

/-- Model of Rust `char::is_alphanumeric` on the character sets used here:
ASCII alphanumerics plus the kana and CJK blocks (which are Unicode
alphabetic).  An approximation of the full Unicode predicate, exact on the
code points this development evaluates it at. -/
def rustIsAlphanumeric (c : Char) : Bool :=
  c.isAlphanum || decide (0x3041 ≤ c.toNat ∧ c.toNat ≤ 0x30FF ∧ c.toNat ≠ 0x309B ∧ c.toNat ≠ 0x309C)
    || decide (0x4E00 ≤ c.toNat ∧ c.toNat ≤ 0x9FFF)

/-! ### Script-presence check (src/main.rs lines 57-59, 79-85) -/

/-- `contains_japanese_text`: the three script-range regexes and the
"at least two of the three scripts" rule. -/
def contains_japanese_text (content : List Char) : Bool :=
  let hasHira := content.any (fun c => decide (0x3040 ≤ c.toNat ∧ c.toNat ≤ 0x309F))
  let hasKata := content.any (fun c => decide (0x30A0 ≤ c.toNat ∧ c.toNat ≤ 0x30FF))
  let hasCjk := content.any (fun c => decide (0x4E00 ≤ c.toNat ∧ c.toNat ≤ 0x9FFF))
  decide (2 ≤ ([hasHira, hasKata, hasCjk].count true))

/-! ### The `<html lang=...>` regex (src/main.rs lines 51-56, 67-76)

`LANG_REGEX` is `<html\b[^>]*\blang=['"]?([a-zA-Z-]+)['"]?`, case-insensitive.
The Rust regex crate uses leftmost-first semantics: the match starts at the
first position where the whole pattern can match, and the greedy `[^>]*`
backtracks from the longest extent, so within that run the last position
admitting `\blang=['"]?([a-zA-Z-]+)` supplies the capture.  The word boundary
`\b` is modelled over ASCII word characters. -/

def isWordChar (c : Char) : Bool := c.isAlphanum || c == '_'

/-- Case-insensitively consume `pat` (given lowercase) from the front of `s`,
returning the remainder. -/
def ciMatch : List Char → List Char → Option (List Char)
  | [], s => some s
  | _ :: _, [] => none
  | p :: ps, c :: cs => if c.toLower == p then ciMatch ps cs else none

def isLangLetter (c : Char) : Bool := c.isAlpha || c == '-'

/-- One attempt of `\blang=['"]?([a-zA-Z-]+)` at the current position; `prev`
is the character immediately before the position. -/
def tryLang (prev : Char) (s : List Char) : Option (List Char) :=
  if isWordChar prev then none
  else
    match ciMatch ['l', 'a', 'n', 'g', '='] s with
    | none => none
    | some rest =>
      let rest2 := match rest with
        | q :: t => if q == '"' || q.toNat == 39 then t else rest
        | [] => rest
      let letters := rest2.takeWhile isLangLetter
      if letters.isEmpty then none else some letters

/-- Walk the maximal `[^>]*` run, keeping the capture of the last successful
`\blang=...` attempt (greedy backtracking of `[^>]*`). -/
def scanRun : Char → List Char → Option (List Char) → Option (List Char)
  | prev, [], best =>
    (match tryLang prev [] with | some v => some v | none => best)
  | prev, c :: cs, best =>
    let best2 := match tryLang prev (c :: cs) with | some v => some v | none => best
    if c == '>' then best2 else scanRun c cs best2

/-- The capture group of the first (leftmost) full match of `LANG_REGEX`. -/
def langCapture : List Char → Option (List Char)
  | [] => none
  | c :: cs =>
    match ciMatch ['<', 'h', 't', 'm', 'l'] (c :: cs) with
    | some after =>
      let bOk := match after with | [] => true | a :: _ => !isWordChar a
      if bOk then
        match scanRun 'l' after none with
        | some v => some v
        | none => langCapture cs
      else langCapture cs
    | none => langCapture cs

/-- `is_japanese_page_by_lang_regexp`: accept when the captured language
value, lowercased, starts with "ja"; accept when there is no match. -/
def is_japanese_page_by_lang_regexp (content : List Char) : Bool :=
  match langCapture content with
  | some v => ['j', 'a'].isPrefixOf (v.map Char.toLower)
  | none => true

/-! ### HTML text extraction (src/main.rs lines 87-124)

The DOM construction of html5ever is external; `Node` is the tree it hands
back (`markup5ever_rcdom`: element nodes with a tag name and children, text
nodes with contents; other node kinds carry no text and are irrelevant to the
walk).  `collectNode` is the source's `recurse`: skip the subtree of an
excluded element, stream text-node characters through the whitespace
normalizer, visit children in order.  State is the pair (collected output,
prev_space flag). -/

inductive Node where
  | text : List Char → Node
  | element : List Char → List Node → Node

/-- The character loop of `recurse` on a text node (src/main.rs 103-115):
a run of whitespace emits a single space, other characters are copied. -/
def pushChars : List Char → (List Char × Bool) → (List Char × Bool)
  | [], st => st
  | c :: cs, (out, prev) =>
    if c.isWhitespace then
      if prev then pushChars cs (out, true)
      else pushChars cs (out ++ [' '], true)
    else pushChars cs (out ++ [c], false)

/-- The fixed exclusion set {script, style, header, footer, nav}
(src/main.rs 94-98; tag names from the parser are already lowercase,
matching `eq_ignore_ascii_case`). -/
def excludedTag (tag : List Char) : Bool :=
  tag == "script".data || tag == "style".data || tag == "header".data
    || tag == "footer".data || tag == "nav".data

mutual
/-- `recurse` of `strip_tags` on one node. -/
def collectNode : Node → (List Char × Bool) → (List Char × Bool)
  | Node.text s, st => pushChars s st
  | Node.element tag ch, st => if excludedTag tag then st else collectNodes ch st
/-- `recurse` over a child list, threading the (out, prev_space) state. -/
def collectNodes : List Node → (List Char × Bool) → (List Char × Bool)
  | [], st => st
  | n :: ns, st => collectNodes ns (collectNode n st)
end

/-- Rust `str::trim`: drop whitespace from both ends. -/
def trimList (t : List Char) : List Char :=
  ((t.dropWhile Char.isWhitespace).reverse.dropWhile Char.isWhitespace).reverse

/-- `strip_tags` applied to an already constructed DOM: walk from the root
with empty output and `prev_space = true`, then trim (src/main.rs 120-123). -/
def stripTagsDom (doc : Node) : List Char :=
  trimList ((collectNode doc ([], true)).1)

/-- `strip_tags` proper: html5ever's `parse_document` is the external DOM
primitive, passed in as `parse`. -/
def strip_tags (parse : List Char → Node) (input : List Char) : List Char :=
  stripTagsDom (parse input)

/-! ### Repetition detector (src/main.rs lines 127-166) -/

/-- Rust `slice::windows(n)`: all contiguous subslices of length `n`, empty
when `n` exceeds the length (the Rust function panics for `n = 0`; it is only
called with `n = NGRAM_SIZE = 3`). -/
def windows {T : Type} (n : Nat) : List T → List (List T)
  | [] => []
  | a :: l => if 0 < n ∧ n ≤ l.length + 1 then (a :: l).take n :: windows n l else []

/-- `check_ngram_count`: the source folds the windows through a HashMap of
counts and returns true as soon as a count exceeds `threshold`, which happens
iff some window's total occurrence count exceeds `threshold`. -/
def check_ngram_count {T : Type} [DecidableEq T] (tokens : List T) (n threshold : Nat) : Bool :=
  (windows n tokens).any (fun w => decide (threshold < (windows n tokens).count w))

/-- Accumulator-style splitter: `splitOnP p s acc` splits `s` at characters
satisfying `p`, dropping empty segments; `acc` holds the current segment
reversed. -/
def splitOnP (p : Char → Bool) : List Char → List Char → List (List Char)
  | [], acc => if acc.isEmpty then [] else [acc.reverse]
  | c :: cs, acc =>
    if p c then
      if acc.isEmpty then splitOnP p cs [] else acc.reverse :: splitOnP p cs []
    else splitOnP p cs (c :: acc)

/-- Rust `str::split_whitespace`: whitespace-delimited words, empties dropped. -/
def splitOnWs (s : List Char) : List (List Char) := splitOnP Char.isWhitespace s []

/-- `has_repeating_ngrams`: lowercase, strip characters that are neither
alphanumeric nor whitespace, then test word-level and character-level
n-grams. -/
def has_repeating_ngrams (text : List Char) (n threshold : Nat) : Bool :=
  let normalized := (text.map Char.toLower).filter
    (fun c => rustIsAlphanumeric c || c.isWhitespace)
  let words := splitOnWs normalized
  if check_ngram_count words n threshold then true
  else if check_ngram_count normalized n threshold then true
  else false

/-! ### Date-list structural filter (src/main.rs lines 60-64, 183-187)

`DATE_REGEX` is `\d{4}年\d{1,2}月`; `find_iter(..).count()` counts
non-overlapping leftmost matches, resuming after each match.  `\d{1,2}` is
greedy: two digits are preferred when the third following character is 月. -/

def countDatesF : Nat → List Char → Nat
  | 0, _ => 0
  | _, [] => 0
  | f + 1, c :: rest =>
    match rest with
    | d2 :: d3 :: d4 :: y :: m1 :: rest5 =>
      if c.isDigit && d2.isDigit && d3.isDigit && d4.isDigit && y == '年' && m1.isDigit then
        match rest5 with
        | x :: rest6 =>
          if x.isDigit then
            match rest6 with
            | g :: rest7 => if g == '月' then 1 + countDatesF f rest7 else countDatesF f rest
            | [] => countDatesF f rest
          else if x == '月' then 1 + countDatesF f rest6
          else countDatesF f rest
        | [] => countDatesF f rest
      else countDatesF f rest
    | _ => countDatesF f rest

/-- `DATE_REGEX.find_iter(s).count()`.  The fuel argument of `countDatesF`
only bounds the number of scan steps; starting it at the string length makes
it never run out, since every step consumes at least one character. -/
def countDates (s : List Char) : Nat := countDatesF s.length s

/-! ### Envelope handling (src/main.rs lines 256-276) -/

/-- UTF-8 validation and decoding of `std::str::from_utf8`: strict UTF-8,
rejecting continuation-byte starts, overlong encodings, surrogates and
code points above U+10FFFF. -/
def utf8Decode : List Nat → Option (List Char)
  | [] => some []
  | b :: rest =>
    if b < 0x80 then (utf8Decode rest).map (fun cs => Char.ofNat b :: cs)
    else if b < 0xC2 then none
    else if b < 0xE0 then
      match rest with
      | b1 :: rest1 =>
        if 0x80 ≤ b1 ∧ b1 < 0xC0 then
          (utf8Decode rest1).map (fun cs => Char.ofNat ((b - 0xC0) * 64 + (b1 - 0x80)) :: cs)
        else none
      | [] => none
    else if b < 0xF0 then
      match rest with
      | b1 :: b2 :: rest2 =>
        if (if b == 0xE0 then 0xA0 else 0x80) ≤ b1 ∧ b1 ≤ (if b == 0xED then 0x9F else 0xBF)
            ∧ 0x80 ≤ b2 ∧ b2 < 0xC0 then
          (utf8Decode rest2).map (fun cs =>
            Char.ofNat ((b - 0xE0) * 4096 + (b1 - 0x80) * 64 + (b2 - 0x80)) :: cs)
        else none
      | _ => none
    else if b < 0xF5 then
      match rest with
      | b1 :: b2 :: b3 :: rest3 =>
        if (if b == 0xF0 then 0x90 else 0x80) ≤ b1 ∧ b1 ≤ (if b == 0xF4 then 0x8F else 0xBF)
            ∧ 0x80 ≤ b2 ∧ b2 < 0xC0 ∧ 0x80 ≤ b3 ∧ b3 < 0xC0 then
          (utf8Decode rest3).map (fun cs =>
            Char.ofNat ((b - 0xF0) * 262144 + (b1 - 0x80) * 4096 + (b2 - 0x80) * 64 + (b3 - 0x80)) :: cs)
        else none
      | _ => none
    else none

/-- Rust `str::find(pat)`: index of the first occurrence of `pat`. -/
def findSub (pat : List Char) : List Char → Option Nat
  | [] => if pat.isEmpty then some 0 else none
  | c :: cs => if pat.isPrefixOf (c :: cs) then some 0 else (findSub pat cs).map (· + 1)

/-- The header/payload split (src/main.rs 262-268): first `\r\n\r\n`,
otherwise first `\n\n`, otherwise the record is malformed. -/
def splitEnvelope (s : List Char) : Option (List Char × List Char) :=
  match findSub ("\r\n\r\n".data) s with
  | some i => some (s.take i, s.drop (i + 4))
  | none =>
    match findSub ("\n\n".data) s with
    | some i => some (s.take i, s.drop (i + 2))
    | none => none

/-! ### The per-record pipeline (src/main.rs lines 169-208, 231-305) -/

/-- One WARC record as handed over by the external `warc` crate reader.
`host` models `Url::parse(target_uri).ok().and_then(|u| u.host_str())`
— the URL parser is external; `none` covers both an unparsable URI and a
URL without a host. -/
structure WarcRec where
  warcType : Option (List Char)
  targetURI : Option (List Char)
  contentType : Option (List Char)
  contentLength : Option (List Char)
  host : Option (List Char)
  body : List Nat
deriving DecidableEq

/-- The pipeline gates, in the roles named by the design document.  A gate
appears in a record's trace iff the code for that stage ran on the record. -/
inductive Gate where
  | envelope | blocklist | script | extract | structural | repetition | confirm
deriving DecidableEq

/-- `process_text` (src/main.rs 169-208), instrumented with the list of
gates executed, in execution order.  `parse` is the external HTML parser
(only invoked by `strip_tags`, i.e. when `Gate.extract` is in the trace);
`detectJpn` is the external whatlang detector specialised to the test
`detect(prefix) == Some(Jpn)`. -/
def process_text (parse : List Char → Node) (detectJpn : List Char → Bool)
    (text : List Char) : Option (List Char) × List Gate :=
  if !(is_japanese_page_by_lang_regexp text && contains_japanese_text text) then
    (none, [Gate.script])
  else
    let extracted := strip_tags parse text
    if MONTH_LIST_THRESHOLD < countDates extracted then
      (none, [Gate.script, Gate.extract, Gate.structural])
    else if has_repeating_ngrams extracted NGRAM_SIZE NGRAM_REPEAT_THRESHOLD then
      (none, [Gate.script, Gate.extract, Gate.structural, Gate.repetition])
    else
      let prefixChars := extracted.take DETECT_PREFIX_CHARS
      if !detectJpn prefixChars then
        (none, [Gate.script, Gate.extract, Gate.structural, Gate.repetition, Gate.confirm])
      else
        (some extracted, [Gate.script, Gate.extract, Gate.structural, Gate.repetition, Gate.confirm])

def hdrVal : Option (List Char) → List Char
  | some v => v
  | none => []

/-- The literal record-boundary marker written after every kept record
(src/main.rs 300). -/
def boundaryMarker : List Char := "\n\n--- RECORD BOUNDARY ---\n\n".data

/-- The metadata header written for a kept record (src/main.rs 294-297):
WARC-Type, WARC-Target-URI, WARC-Content-Length, WARC-Content-Type, each
`unwrap_or_default`, followed by a blank line. -/
def metaHeader (r : WarcRec) : List Char :=
  "WARC-Type: ".data ++ hdrVal r.warcType
    ++ "\nWARC-Target-URI: ".data ++ hdrVal r.targetURI
    ++ "\nWARC-Content-Length: ".data ++ hdrVal r.contentLength
    ++ "\nWARC-Content-Type: ".data ++ hdrVal r.contentType
    ++ "\n\n".data

/-- The complete output block of one kept record: metadata header, cleaned
text, boundary marker (src/main.rs 294-300). -/
def recordBlock (r : WarcRec) (cleaned : List Char) : List Char :=
  metaHeader r ++ cleaned ++ boundaryMarker

/-- The body of the per-record loop (src/main.rs 244-301): host blocklist
skip, UTF-8 decode, header/payload split, record-type and content-type
check, then `process_text`.  Returns the output block (when kept) and the
ordered trace of gates that ran. -/
def processRecord (parse : List Char → Node) (detectJpn : List Char → Bool)
    (blocked : List (List Char)) (r : WarcRec) : Option (List Char) × List Gate :=
  if (match r.host with | some h => blocked.contains h | none => false) then
    (none, [Gate.blocklist])
  else
    match utf8Decode r.body with
    | none => (none, [Gate.blocklist, Gate.envelope])
    | some bodyStr =>
      match splitEnvelope bodyStr with
      | none => (none, [Gate.blocklist, Gate.envelope])
      | some (_hdr, payload) =>
        if !((r.warcType == some ("response".data))
            && (match r.contentType with
                | some ct => (findSub ("application/http".data) ct).isSome
                | none => false)) then
          (none, [Gate.blocklist, Gate.envelope])
        else
          match process_text parse detectJpn payload with
          | (none, g) => (none, Gate.blocklist :: Gate.envelope :: g)
          | (some cleaned, g) =>
            (some (recordBlock r cleaned), Gate.blocklist :: Gate.envelope :: g)

/-- What one record contributes to the output file. -/
def recordOutput (parse : List Char → Node) (detectJpn : List Char → Bool)
    (blocked : List (List Char)) (r : WarcRec) : List Char :=
  match (processRecord parse detectJpn blocked r).1 with
  | some out => out
  | none => []

/-- The per-file loop (src/main.rs 231-305): `count` is `record_count`.
It is incremented for each record; with a positive cap the loop breaks as
soon as the incremented count reaches the cap, before examining that
record. -/
def processFileGo (parse : List Char → Node) (detectJpn : List Char → Bool)
    (blocked : List (List Char)) (maxRecords : Nat) :
    Nat → List WarcRec → List Char
  | _, [] => []
  | count, r :: rs =>
    let c := count + 1
    if 0 < maxRecords ∧ maxRecords ≤ c then []
    else recordOutput parse detectJpn blocked r
      ++ processFileGo parse detectJpn blocked maxRecords c rs

/-- `process_wet_file`, restricted to the text it writes to the output file
(console logging and timing are outside the model). -/
def processFile (parse : List Char → Node) (detectJpn : List Char → Bool)
    (blocked : List (List Char)) (maxRecords : Nat) (records : List WarcRec) : List Char :=
  processFileGo parse detectJpn blocked maxRecords 0 records

/-! ### Spec-side definitions, used to compare code behaviour against the
specification's words -/

/-- The gate order claimed by the specification's state machine (§4.8):
envelope first, then blocklist. -/
def specGateOrder : List Gate :=
  [Gate.envelope, Gate.blocklist, Gate.script, Gate.extract,
   Gate.structural, Gate.repetition, Gate.confirm]

/-- The gate order the code actually executes. -/
def codeGateOrder : List Gate :=
  [Gate.blocklist, Gate.envelope, Gate.script, Gate.extract,
   Gate.structural, Gate.repetition, Gate.confirm]

/-- Modelled from the spec (§4.5): sentence-terminal punctuation for the
long-sentence filter, which has no implementation in src/ (only the unused
constant `LONG_SENTENCE_LEN`). -/
def isSentenceTerminal (c : Char) : Bool :=
  c == '。' || c == '．' || c == '.' || c == '!' || c == '?'
    || c == '！' || c == '？' || c == '\n'

/-- Modelled from the spec (§4.5): split cleaned text on sentence-terminal
punctuation and/or newlines. -/
def sentenceSegments (s : List Char) : List (List Char) :=
  splitOnP isSentenceTerminal s []

/-- Modelled from the spec (§4.5): some segment's character count exceeds
`len`. -/
def hasLongSentence (len : Nat) (s : List Char) : Bool :=
  (sentenceSegments s).any (fun seg => decide (len < seg.length))

/-- Model of the external HTML parser on markup-free input: the resulting
tree's only text is the input itself (html5ever wraps it in html/body
elements, none of which is in the exclusion set). -/
def wrapDoc (s : List Char) : Node :=
  Node.element ("html".data) [Node.element ("head".data) [], Node.element ("body".data) [Node.text s]]

/-- A degenerate external-parser stand-in used for concrete witness records:
the whole input as a single text node. -/
def textParse (s : List Char) : Node := Node.text s

/-- A detector oracle that always confirms the target language. -/
def detectTrue (_ : List Char) : Bool := true

/-! ### Concrete records used as witnesses -/

/-- UTF-8 bytes of an ASCII string. -/
def asciiBytes (s : List Char) : List Nat := s.map Char.toNat

/-- A short payload in two Japanese scripts, with no markup, no long
sentence, no date pattern and no repetition: ひらカタ. -/
def payloadC2 : List Char := "ひらカタ".data

/-- A record the pipeline keeps: response type, HTTP content type, a body
with a `\n\n` separator and the UTF-8 bytes of `payloadC2`. -/
def recC2 : WarcRec :=
  { warcType := some ("response".data)
    targetURI := some ("http://example.jp/".data)
    contentType := some ("application/http; msgtype=response".data)
    contentLength := some ("12".data)
    host := none
    body := asciiBytes ("HTTP/1.1 200 OK\n\n".data)
      ++ [0xE3, 0x81, 0xB2, 0xE3, 0x82, 0x89, 0xE3, 0x82, 0xAB, 0xE3, 0x82, 0xBF] }

/-- A record whose body is a single invalid UTF-8 byte. -/
def recBadUtf8 : WarcRec :=
  { warcType := some ("response".data)
    targetURI := none
    contentType := some ("application/http".data)
    contentLength := none
    host := none
    body := [0xFF] }

/-- The same malformed body, but with a host that is on the blocklist. -/
def recBlockedBad : WarcRec :=
  { recBadUtf8 with
    host := some ("blocked.example.com".data)
    targetURI := some ("http://blocked.example.com/".data) }

def blockedHosts : List (List Char) := [("blocked.example.com".data)]

/-- An English page declaring `lang="en"`. -/
def payloadEn : List Char := "<html lang=\"en\"><body>hello world</body></html>".data

/-! ### Proof-side definitions -/

/-! ### Whitespace-normalization lemmas (for the extractor claims)

`emitChars` is the direct-style reading of `pushChars`: instead of appending
to an accumulated output it returns the emitted characters themselves,
together with the final `prev_space` flag. -/

def emitChars : List Char → Bool → List Char × Bool
  | [], prev => ([], prev)
  | c :: cs, prev =>
    if c.isWhitespace then
      if prev then emitChars cs true
      else (' ' :: (emitChars cs true).1, (emitChars cs true).2)
    else (c :: (emitChars cs false).1, (emitChars cs false).2)

/-- The output of the whitespace-collapsing pass, starting from the initial
`prev_space = true` state, trimmed: what `strip_tags` computes for a document
whose only (non-excluded) text is `s`. -/
def wsNorm (s : List Char) : List Char := trimList ((emitChars s true).1)

/-- Invariant of normalized text starting in state `b`: whitespace characters
are single `' '` only, never adjacent to another space, and (when `b` is
true) never leading. -/
def normedFrom : Bool → List Char → Bool
  | _, [] => true
  | b, c :: cs => if c = ' ' then !b && normedFrom true cs
                  else !c.isWhitespace && normedFrom false cs

/-- No trailing whitespace. -/
def endsClean (t : List Char) : Bool :=
  match t.reverse with
  | [] => true
  | c :: _ => !c.isWhitespace

/-- Fully normalized: single internal spaces only, no leading or trailing
whitespace. -/
def isNormed (t : List Char) : Bool := normedFrom true t && endsClean t

/-- The right-trimmed part of a list. -/
def trimRight (t : List Char) : List Char :=
  (t.reverse.dropWhile Char.isWhitespace).reverse

/-- Joining words with single spaces: the specification's description of
whitespace-normalized text ("every run of whitespace collapses to a single
space; leading/trailing space trimmed") in constructive form. -/
def joinWords : List (List Char) → List Char
  | [] => []
  | [w] => w
  | w :: ws => w ++ ' ' :: joinWords ws

/-- The token stream formed by repeating the 3-token sequence `a b c`
exactly `k` times. -/
def repTriple {α : Type} (a b c : α) (k : Nat) : List α :=
  (List.replicate k [a, b, c]).flatten

/-- The tail of `codeGateOrder` handled inside `process_text`. -/
def textGateOrder : List Gate :=
  [Gate.script, Gate.extract, Gate.structural, Gate.repetition, Gate.confirm]


theorem pushChars_eq (s : List Char) : ∀ (out : List Char) (b : Bool),
    pushChars s (out, b) = (out ++ (emitChars s b).1, (emitChars s b).2) := by
  induction s with
  | nil => intro out b; simp [pushChars, emitChars]
  | cons c cs ih =>
    intro out b
    by_cases hw : c.isWhitespace
    · cases b with
      | true => simp [pushChars, emitChars, hw, ih]
      | false => simp [pushChars, emitChars, hw, ih]
    · simp [pushChars, emitChars, hw, ih]

theorem stripTagsDom_wrapDoc (s : List Char) : stripTagsDom (wrapDoc s) = wsNorm s := by
  simp [stripTagsDom, wrapDoc, collectNode, collectNodes, excludedTag,
    pushChars_eq, wsNorm]

theorem stripTagsDom_textParse (s : List Char) : stripTagsDom (textParse s) = wsNorm s := by
  simp [stripTagsDom, textParse, collectNode, pushChars_eq, wsNorm]

theorem normedFrom_emitChars (s : List Char) : ∀ b, normedFrom b (emitChars s b).1 = true := by
  induction s with
  | nil => intro b; simp [emitChars, normedFrom]
  | cons c cs ih =>
    intro b
    by_cases hw : c.isWhitespace
    · cases b with
      | true => simpa [emitChars, hw] using ih true
      | false => simpa [emitChars, hw, normedFrom] using ih true
    · have hcs : ¬ c = ' ' := fun e => by simp [e] at hw
      simpa [emitChars, hw, normedFrom, hcs] using ih false

theorem normedFrom_append {xs ys : List Char} : ∀ {b : Bool},
    normedFrom b (xs ++ ys) = true → normedFrom b xs = true := by
  induction xs with
  | nil => intro b _; simp [normedFrom]
  | cons c cs ih =>
    intro b h
    by_cases hc : c = ' '
    · simp only [List.cons_append, normedFrom, if_pos hc, Bool.and_eq_true] at h ⊢
      exact ⟨h.1, ih h.2⟩
    · simp only [List.cons_append, normedFrom, if_neg hc, Bool.and_eq_true] at h ⊢
      exact ⟨h.1, ih h.2⟩

theorem emitChars_of_normed (t : List Char) : ∀ b, normedFrom b t = true →
    (emitChars t b).1 = t := by
  induction t with
  | nil => intro b _; simp [emitChars]
  | cons c cs ih =>
    intro b h
    by_cases hc : c = ' '
    · simp only [normedFrom, if_pos hc, Bool.and_eq_true] at h
      have hb : b = false := by
        cases b with
        | false => rfl
        | true => simpa using h.1
      subst hb; subst hc
      simp [emitChars, ih true h.2]
    · simp only [normedFrom, if_neg hc, Bool.and_eq_true] at h
      have hw : c.isWhitespace = false := by
        cases hcw : c.isWhitespace with
        | false => rfl
        | true => rw [hcw] at h; simpa using h.1
      simp [emitChars, hw, ih false h.2]

theorem dropWhile_of_normed {t : List Char} (h : normedFrom true t = true) :
    t.dropWhile Char.isWhitespace = t := by
  cases t with
  | nil => rfl
  | cons c cs =>
    by_cases hc : c = ' '
    · simp only [normedFrom, if_pos hc, Bool.and_eq_true] at h
      simpa using h.1
    · simp only [normedFrom, if_neg hc, Bool.and_eq_true] at h
      have hw : c.isWhitespace = false := by
        cases hcw : c.isWhitespace with
        | false => rfl
        | true => rw [hcw] at h; simpa using h.1
      simp [List.dropWhile, hw]

theorem trimRight_decomp (t : List Char) :
    t = trimRight t ++ (t.reverse.takeWhile Char.isWhitespace).reverse
      ∧ ∀ c ∈ (t.reverse.takeWhile Char.isWhitespace).reverse, c.isWhitespace = true := by
  constructor
  · have h := List.takeWhile_append_dropWhile (p := Char.isWhitespace) (l := t.reverse)
    calc t = t.reverse.reverse := (List.reverse_reverse t).symm
    _ = (t.reverse.takeWhile Char.isWhitespace ++ t.reverse.dropWhile Char.isWhitespace).reverse := by rw [h]
    _ = trimRight t ++ (t.reverse.takeWhile Char.isWhitespace).reverse := by
        rw [List.reverse_append]; rfl
  · intro c hc
    rw [List.mem_reverse] at hc
    exact List.mem_takeWhile_imp hc

theorem head_dropWhile_false {p : Char → Bool} : ∀ {l : List Char} {c : List Char} {a : Char},
    l.dropWhile p = a :: c → p a = false := by
  intro l
  induction l with
  | nil => intro c a h; simp [List.dropWhile] at h
  | cons x xs ih =>
    intro c a h
    by_cases hx : p x
    · rw [List.dropWhile_cons_of_pos hx] at h; exact ih h
    · rw [List.dropWhile_cons_of_neg hx] at h
      cases h
      exact Bool.eq_false_iff.mpr hx

theorem endsClean_trimRight (t : List Char) : endsClean (trimRight t) = true := by
  unfold endsClean trimRight
  rw [List.reverse_reverse]
  cases h : t.reverse.dropWhile Char.isWhitespace with
  | nil => rfl
  | cons a l => simp [head_dropWhile_false h]

theorem isNormed_trimList {t : List Char} (h : normedFrom true t = true) :
    isNormed (trimList t) = true := by
  have hTL : t.dropWhile Char.isWhitespace = t := dropWhile_of_normed h
  have hEq : trimList t = trimRight t := by unfold trimList trimRight; rw [hTL]
  rw [hEq]
  unfold isNormed
  obtain ⟨hdec, _⟩ := trimRight_decomp t
  have hpre : normedFrom true (trimRight t) = true := normedFrom_append (hdec ▸ h)
  rw [hpre, endsClean_trimRight]
  rfl

theorem isNormed_wsNorm (s : List Char) : isNormed (wsNorm s) = true :=
  isNormed_trimList (normedFrom_emitChars s true)

theorem trimList_of_isNormed {t : List Char} (h : isNormed t = true) : trimList t = t := by
  unfold isNormed at h
  rw [Bool.and_eq_true] at h
  unfold trimList
  rw [dropWhile_of_normed h.1]
  have : t.reverse.dropWhile Char.isWhitespace = t.reverse := by
    unfold endsClean at h
    cases hr : t.reverse with
    | nil => rfl
    | cons c cs =>
      have := h.2
      rw [hr] at this
      simp only at this
      have hcw : c.isWhitespace = false := by
        cases hcw : c.isWhitespace with
        | false => rfl
        | true => rw [hcw] at this; simp at this
      simp [List.dropWhile, hcw]
  rw [this, List.reverse_reverse]

/-- Idempotence of the whitespace-collapsing pass. -/
theorem wsNorm_idem (s : List Char) : wsNorm (wsNorm s) = wsNorm s := by
  have hn : isNormed (wsNorm s) = true := isNormed_wsNorm s
  have h1 : normedFrom true (wsNorm s) = true := by
    unfold isNormed at hn; rw [Bool.and_eq_true] at hn; exact hn.1
  show trimList ((emitChars (wsNorm s) true).1) = wsNorm s
  rw [emitChars_of_normed _ true h1]
  exact trimList_of_isNormed hn

/-! Word-structure invariance: the collapsing pass and the final trim change
only whitespace, never the sequence of whitespace-delimited words. -/

theorem splitOnP_emitChars (s : List Char) :
    splitOnP Char.isWhitespace (emitChars s true).1 [] = splitOnP Char.isWhitespace s []
    ∧ ∀ acc, splitOnP Char.isWhitespace (emitChars s false).1 acc
        = splitOnP Char.isWhitespace s acc := by
  induction s with
  | nil => exact ⟨rfl, fun acc => rfl⟩
  | cons c cs ih =>
    by_cases hw : c.isWhitespace
    · constructor
      · have he : emitChars (c :: cs) true = emitChars cs true := by simp [emitChars, hw]
        rw [he, ih.1]
        simp [splitOnP, hw]
      · intro acc
        have he : (emitChars (c :: cs) false).1 = ' ' :: (emitChars cs true).1 := by
          simp [emitChars, hw]
        rw [he]
        simp only [splitOnP, (by decide : (' ').isWhitespace = true), if_pos]
        rw [ih.1]
        simp [splitOnP, hw]
    · have hwf : c.isWhitespace = false := Bool.eq_false_iff.mpr hw
      constructor
      · have he : (emitChars (c :: cs) true).1 = c :: (emitChars cs false).1 := by
          simp [emitChars, hwf]
        rw [he]
        simp only [splitOnP, hwf]
        rw [ih.2 [c]]
        simp
      · intro acc
        have he : (emitChars (c :: cs) false).1 = c :: (emitChars cs false).1 := by
          simp [emitChars, hwf]
        rw [he]
        simp only [splitOnP, hwf]
        rw [ih.2 (c :: acc)]
        simp

theorem splitOnP_dropWhile (t : List Char) :
    splitOnP Char.isWhitespace (t.dropWhile Char.isWhitespace) []
      = splitOnP Char.isWhitespace t [] := by
  induction t with
  | nil => rfl
  | cons c cs ih =>
    by_cases hw : c.isWhitespace
    · rw [List.dropWhile_cons_of_pos hw, ih]
      simp [splitOnP, hw]
    · rw [List.dropWhile_cons_of_neg hw]

theorem splitOnP_allWs {u : List Char} (hu : ∀ c ∈ u, c.isWhitespace = true) :
    ∀ acc, splitOnP Char.isWhitespace u acc
      = if acc.isEmpty then [] else [acc.reverse] := by
  induction u with
  | nil => intro acc; rfl
  | cons c cs ih =>
    intro acc
    have hc : c.isWhitespace = true := hu c (List.mem_cons_self c cs)
    have ih' := ih (fun x hx => hu x (List.mem_cons_of_mem c hx))
    by_cases ha : acc.isEmpty
    · simp [splitOnP, hc, ha, ih' []]
    · simp [splitOnP, hc, ha, ih' []]

theorem splitOnP_append_allWs {u : List Char} (hu : ∀ c ∈ u, c.isWhitespace = true) :
    ∀ (t : List Char) (acc : List Char), splitOnP Char.isWhitespace (t ++ u) acc
      = splitOnP Char.isWhitespace t acc := by
  intro t
  induction t with
  | nil =>
    intro acc
    show splitOnP Char.isWhitespace u acc = _
    rw [splitOnP_allWs hu acc]
    rfl
  | cons c cs ih =>
    intro acc
    by_cases hw : c.isWhitespace
    · by_cases ha : acc.isEmpty
      · simp [splitOnP, hw, ha, ih []]
      · simp [splitOnP, hw, ha, ih []]
    · simp [splitOnP, hw, ih (c :: acc)]

theorem splitOnWs_trimList (t : List Char) : splitOnWs (trimList t) = splitOnWs t := by
  unfold splitOnWs
  have h1 : trimList t = trimRight (t.dropWhile Char.isWhitespace) := by
    unfold trimList trimRight; rfl
  obtain ⟨hdec, hws⟩ := trimRight_decomp (t.dropWhile Char.isWhitespace)
  rw [h1]
  calc splitOnP Char.isWhitespace (trimRight (t.dropWhile Char.isWhitespace)) []
      = splitOnP Char.isWhitespace (trimRight (t.dropWhile Char.isWhitespace)
          ++ ((t.dropWhile Char.isWhitespace).reverse.takeWhile Char.isWhitespace).reverse) [] :=
        (splitOnP_append_allWs hws _ []).symm
    _ = splitOnP Char.isWhitespace (t.dropWhile Char.isWhitespace) [] := by rw [← hdec]
    _ = splitOnP Char.isWhitespace t [] := splitOnP_dropWhile t

theorem splitOnWs_wsNorm (s : List Char) : splitOnWs (wsNorm s) = splitOnWs s := by
  unfold wsNorm
  rw [splitOnWs_trimList]
  exact (splitOnP_emitChars s).1

theorem joinWords_cons₂ (w x : List Char) (xs : List (List Char)) :
    joinWords (w :: x :: xs) = w ++ ' ' :: joinWords (x :: xs) := rfl

theorem splitOnP_ne_nil (p : Char → Bool) : ∀ (t acc : List Char),
    acc.isEmpty = false → splitOnP p t acc ≠ [] := by
  intro t
  induction t with
  | nil => intro acc ha; simp [splitOnP, ha]
  | cons c cs ih =>
    intro acc ha
    by_cases hc : p c
    · simp [splitOnP, hc, ha]
    · simp only [splitOnP, Bool.eq_false_iff.mpr hc]
      exact fun h => ih (c :: acc) rfl (by simpa using h)

theorem endsClean_cons {c : Char} {cs : List Char} (h : cs ≠ []) :
    endsClean (c :: cs) = endsClean cs := by
  cases hr : cs.reverse with
  | nil => exact absurd (List.reverse_eq_nil_iff.mp hr) h
  | cons a l => simp [endsClean, List.reverse_cons, hr]

theorem normedFrom_true_head_not_ws {c : Char} {cs : List Char}
    (h : normedFrom true (c :: cs) = true) :
    c.isWhitespace = false ∧ normedFrom false cs = true := by
  by_cases hc : c = ' '
  · simp only [normedFrom, if_pos hc, Bool.and_eq_true] at h
    simpa using h.1
  · simp only [normedFrom, if_neg hc, Bool.and_eq_true] at h
    refine ⟨?_, h.2⟩
    cases hcw : c.isWhitespace with
    | false => rfl
    | true => rw [hcw] at h; simpa using h.1

theorem joinWords_splitOnP : ∀ (n : Nat) (t : List Char), t.length ≤ n →
    (normedFrom true t = true → endsClean t = true → joinWords (splitOnWs t) = t)
    ∧ (∀ acc, acc.isEmpty = false → normedFrom false t = true → endsClean t = true →
        joinWords (splitOnP Char.isWhitespace t acc) = acc.reverse ++ t) := by
  intro n
  induction n with
  | zero =>
    intro t ht
    have : t = [] := List.length_eq_zero.mp (Nat.le_zero.mp ht)
    subst this
    exact ⟨fun _ _ => rfl, fun acc ha _ _ => by simp [splitOnP, ha, joinWords]⟩
  | succ n ih =>
    intro t ht
    cases t with
    | nil => exact ⟨fun _ _ => rfl, fun acc ha _ _ => by simp [splitOnP, ha, joinWords]⟩
    | cons c cs =>
      have hcs : cs.length ≤ n := Nat.le_of_succ_le_succ ht
      constructor
      · intro hn he
        obtain ⟨hw, hrest⟩ := normedFrom_true_head_not_ws hn
        have hec : endsClean cs = true := by
          cases hcse : cs with
          | nil => rfl
          | cons d ds => rw [← endsClean_cons (by simp [hcse]), ← hcse]; exact he
        have := (ih cs hcs).2 [c] rfl hrest hec
        unfold splitOnWs
        simp only [splitOnP, hw]
        simpa using this
      · intro acc ha hn he
        by_cases hc : c = ' '
        · subst hc
          have hrest : normedFrom true cs = true := by simpa [normedFrom] using hn
          cases hcse : cs with
          | nil =>
            subst hcse
            simp [endsClean] at he
          | cons d ds =>
            subst hcse
            have hec : endsClean (d :: ds) = true := by
              rw [← endsClean_cons (by simp : (d :: ds) ≠ [])]; exact he
            obtain ⟨hdw, _⟩ := normedFrom_true_head_not_ws hrest
            have hne : splitOnP Char.isWhitespace (d :: ds) [] ≠ [] := by
              simp only [splitOnP, hdw]
              exact splitOnP_ne_nil _ ds [d] rfl
            have hj : joinWords (splitOnWs (d :: ds)) = d :: ds :=
              (ih (d :: ds) hcs).1 hrest hec
            have hsplit : splitOnP Char.isWhitespace (' ' :: d :: ds) acc
                = acc.reverse :: splitOnP Char.isWhitespace (d :: ds) [] := by
              simp [splitOnP, ha]
            rw [hsplit]
            cases hL : splitOnP Char.isWhitespace (d :: ds) [] with
            | nil => exact absurd hL hne
            | cons w ws =>
              rw [joinWords_cons₂]
              unfold splitOnWs at hj
              rw [hL] at hj
              rw [hj]
        · have hw : c.isWhitespace = false := by
            simp only [normedFrom, if_neg hc, Bool.and_eq_true] at hn
            cases hcw : c.isWhitespace with
            | false => rfl
            | true => rw [hcw] at hn; simpa using hn.1
          have hrest : normedFrom false cs = true := by
            simp only [normedFrom, if_neg hc, Bool.and_eq_true] at hn
            exact hn.2
          have hec : endsClean cs = true := by
            cases hcse : cs with
            | nil => rfl
            | cons d ds => rw [← endsClean_cons (by simp [hcse]), ← hcse]; exact he
          have hrec := (ih cs hcs).2 (c :: acc) rfl hrest hec
          have hsplit : splitOnP Char.isWhitespace (c :: cs) acc
              = splitOnP Char.isWhitespace cs (c :: acc) := by
            simp [splitOnP, hw]
          rw [hsplit, hrec]
          simp

theorem joinWords_splitOnWs_of_isNormed {t : List Char} (h : isNormed t = true) :
    joinWords (splitOnWs t) = t := by
  unfold isNormed at h
  rw [Bool.and_eq_true] at h
  exact (joinWords_splitOnP t.length t (Nat.le_refl _)).1 h.1 h.2

/-! ### N-gram lemmas (for the repetition-detector claim) -/

theorem repTriple_succ {α : Type} (a b c : α) (k : Nat) :
    repTriple a b c (k + 1) = a :: b :: c :: repTriple a b c k := by
  simp [repTriple, List.replicate_succ]

theorem repTriple_length {α : Type} (a b c : α) : ∀ k, (repTriple a b c k).length = 3 * k := by
  intro k
  induction k with
  | zero => rfl
  | succ m ih => rw [repTriple_succ]; simp [ih]; ring

theorem windows3_cons3 {α : Type} (x y z : α) (l : List α) :
    windows 3 (x :: y :: z :: l) = [x, y, z] :: windows 3 (y :: z :: l) := by
  conv_lhs => rw [windows]
  rw [if_pos ⟨by norm_num, by simp⟩]
  rfl

theorem windows3_repTriple_one {α : Type} (a b c : α) :
    windows 3 (repTriple a b c 1) = [[a, b, c]] := by
  show windows 3 [a, b, c] = [[a, b, c]]
  rw [windows3_cons3 a b c []]
  have h : windows 3 [b, c] = ([] : List (List α)) := by
    conv_lhs => rw [windows]
    rw [if_neg (by simp)]
  rw [h]

theorem windows3_repTriple_succ {α : Type} (a b c : α) (k : Nat) (hk : 1 ≤ k) :
    windows 3 (repTriple a b c (k + 1))
      = [a, b, c] :: [b, c, a] :: [c, a, b] :: windows 3 (repTriple a b c k) := by
  obtain ⟨m, rfl⟩ : ∃ m, k = m + 1 := ⟨k - 1, by omega⟩
  rw [repTriple_succ a b c (m + 1), repTriple_succ a b c m]
  rw [windows3_cons3, windows3_cons3, windows3_cons3]

theorem count_windows3_repTriple_ge {α : Type} [DecidableEq α] (a b c : α) :
    ∀ k, 1 ≤ k → k ≤ ((windows 3 (repTriple a b c k)).count [a, b, c]) := by
  intro k
  induction k with
  | zero => intro h; omega
  | succ m ih =>
    intro _
    by_cases hm : 1 ≤ m
    · rw [windows3_repTriple_succ a b c m hm]
      have h1 := ih hm
      simp only [List.count_cons, beq_iff_eq]
      split <;> split <;> simp <;> omega
    · have hm0 : m = 0 := by omega
      subst hm0
      rw [windows3_repTriple_one]
      simp [List.count_cons]

theorem mem_windows3_repTriple {α : Type} (a b c : α) :
    ∀ k, 1 ≤ k → [a, b, c] ∈ windows 3 (repTriple a b c k) := by
  intro k
  induction k with
  | zero => intro h; omega
  | succ m ih =>
    intro _
    by_cases hm : 1 ≤ m
    · rw [windows3_repTriple_succ a b c m hm]
      exact List.mem_cons_self _ _
    · have hm0 : m = 0 := by omega
      subst hm0
      rw [windows3_repTriple_one]
      exact List.mem_cons_self _ _

theorem windows3_repTriple_closed {α : Type} [DecidableEq α] {a b c : α}
    (hne : ¬(a = b ∧ b = c)) :
    ∀ k, 1 ≤ k →
      ((windows 3 (repTriple a b c k)).count [a, b, c] = k
        ∧ (windows 3 (repTriple a b c k)).count [b, c, a] = k - 1
        ∧ (windows 3 (repTriple a b c k)).count [c, a, b] = k - 1
        ∧ ∀ w ∈ windows 3 (repTriple a b c k),
            w = [a, b, c] ∨ w = [b, c, a] ∨ w = [c, a, b]) := by
  have h1 : ¬([a, b, c] = ([b, c, a] : List α)) := by
    intro h
    simp only [List.cons.injEq, and_true] at h
    exact hne ⟨h.1, h.2.1⟩
  have h2 : ¬([a, b, c] = ([c, a, b] : List α)) := by
    intro h
    simp only [List.cons.injEq, and_true] at h
    exact hne ⟨h.2.1.symm, h.2.2.symm⟩
  have h3 : ¬([b, c, a] = ([c, a, b] : List α)) := by
    intro h
    simp only [List.cons.injEq, and_true] at h
    exact hne ⟨h.2.2, h.1⟩
  have h1s := Ne.symm h1
  have h2s := Ne.symm h2
  have h3s := Ne.symm h3
  intro k
  induction k with
  | zero => intro h; omega
  | succ m ih =>
    intro _
    by_cases hm : 1 ≤ m
    · obtain ⟨c1, c2, c3, hmem⟩ := ih hm
      rw [windows3_repTriple_succ a b c m hm]
      refine ⟨?_, ?_, ?_, ?_⟩
      · simp [List.count_cons, c1, h1, h2, h1s, h2s]
      · simp [List.count_cons, c2, h1, h3, h1s, h3s]
        omega
      · simp [List.count_cons, c3, h2, h3, h2s, h3s]
        omega
      · intro w hw
        rcases List.mem_cons.mp hw with h | hw
        · exact Or.inl h
        rcases List.mem_cons.mp hw with h | hw
        · exact Or.inr (Or.inl h)
        rcases List.mem_cons.mp hw with h | hw
        · exact Or.inr (Or.inr h)
        · exact hmem w hw
    · have hm0 : m = 0 := by omega
      subst hm0
      rw [windows3_repTriple_one]
      refine ⟨by simp [List.count_cons], ?_, ?_, ?_⟩
      · simp [List.count_cons, h1s]
      · simp [List.count_cons, h2s]
      · intro w hw
        simp at hw
        exact Or.inl hw

theorem check_ngram_repTriple_over {α : Type} [DecidableEq α] (a b c : α) :
    check_ngram_count (repTriple a b c (NGRAM_REPEAT_THRESHOLD + 1))
      NGRAM_SIZE NGRAM_REPEAT_THRESHOLD = true := by
  have e1 : NGRAM_REPEAT_THRESHOLD + 1 = 11 := rfl
  have e2 : NGRAM_SIZE = 3 := rfl
  have e3 : NGRAM_REPEAT_THRESHOLD = 10 := rfl
  rw [e1, e2, e3]
  unfold check_ngram_count
  rw [List.any_eq_true]
  refine ⟨[a, b, c], mem_windows3_repTriple a b c 11 (by norm_num), ?_⟩
  rw [decide_eq_true_eq]
  have := count_windows3_repTriple_ge a b c 11 (by norm_num)
  omega

theorem check_ngram_repTriple_at {α : Type} [DecidableEq α] {a b c : α}
    (hne : ¬(a = b ∧ b = c)) :
    check_ngram_count (repTriple a b c NGRAM_REPEAT_THRESHOLD)
      NGRAM_SIZE NGRAM_REPEAT_THRESHOLD = false := by
  have e2 : NGRAM_SIZE = 3 := rfl
  have e3 : NGRAM_REPEAT_THRESHOLD = 10 := rfl
  rw [e2, e3]
  unfold check_ngram_count
  rw [Bool.eq_false_iff]
  intro hany
  rw [List.any_eq_true] at hany
  obtain ⟨w, hmem, hp⟩ := hany
  rw [decide_eq_true_eq] at hp
  obtain ⟨c1, c2, c3, hcl⟩ := windows3_repTriple_closed hne 10 (by norm_num)
  rcases hcl w hmem with rfl | rfl | rfl
  · rw [c1] at hp; omega
  · rw [c2] at hp; omega
  · rw [c3] at hp; omega

/-! ### Pipeline trace lemmas -/

theorem codeGateOrder_eq : codeGateOrder = Gate.blocklist :: Gate.envelope :: textGateOrder := rfl

theorem process_text_trace (parse : List Char → Node) (detectJpn : List Char → Bool)
    (text : List Char) :
    (process_text parse detectJpn text).2
        = textGateOrder.take ((process_text parse detectJpn text).2).length
    ∧ ((process_text parse detectJpn text).1.isSome = true →
        (process_text parse detectJpn text).2 = textGateOrder) := by
  simp only [process_text]
  split
  · exact ⟨rfl, by intro h; simp at h⟩
  · split
    · exact ⟨rfl, by intro h; simp at h⟩
    · split
      · exact ⟨rfl, by intro h; simp at h⟩
      · split
        · exact ⟨rfl, by intro h; simp at h⟩
        · exact ⟨rfl, fun _ => rfl⟩

theorem processRecord_trace (parse : List Char → Node) (detectJpn : List Char → Bool)
    (blocked : List (List Char)) (r : WarcRec) :
    (processRecord parse detectJpn blocked r).2
        = codeGateOrder.take ((processRecord parse detectJpn blocked r).2).length
    ∧ ((processRecord parse detectJpn blocked r).1.isSome = true →
        (processRecord parse detectJpn blocked r).2 = codeGateOrder) := by
  simp only [processRecord]
  split
  · exact ⟨rfl, by intro h; simp at h⟩
  · split
    · exact ⟨rfl, by intro h; simp at h⟩
    · split
      · exact ⟨rfl, by intro h; simp at h⟩
      · split
        · exact ⟨rfl, by intro h; simp at h⟩
        · split
          · rename_i hdr payload hsp htyp xx g hpt
            have ht := process_text_trace parse detectJpn payload
            rw [hpt] at ht
            refine ⟨?_, by intro h; simp at h⟩
            simp only [codeGateOrder_eq, List.length_cons, List.take_succ_cons]
            exact congrArg (fun l => Gate.blocklist :: Gate.envelope :: l) ht.1
          · rename_i hdr payload hsp htyp xx cleaned g hpt
            have ht := process_text_trace parse detectJpn payload
            rw [hpt] at ht
            refine ⟨?_, ?_⟩
            · simp only [codeGateOrder_eq, List.length_cons, List.take_succ_cons]
              exact congrArg (fun l => Gate.blocklist :: Gate.envelope :: l) ht.1
            · intro _
              have h2 : g = textGateOrder := by simpa using ht.2 rfl
              simp [codeGateOrder_eq, h2]

/-! ### Per-file loop lemmas -/

theorem processFileGo_zero (parse : List Char → Node) (detectJpn : List Char → Bool)
    (blocked : List (List Char)) :
    ∀ (records : List WarcRec) (count : Nat),
      processFileGo parse detectJpn blocked 0 count records
        = (records.map (recordOutput parse detectJpn blocked)).flatten := by
  intro records
  induction records with
  | nil => intro count; rfl
  | cons r rs ih =>
    intro count
    simp only [processFileGo]
    rw [if_neg (by simp)]
    simp [ih (count + 1)]

theorem processFile_zero_flatten (parse : List Char → Node) (detectJpn : List Char → Bool)
    (blocked : List (List Char)) (records : List WarcRec) :
    processFile parse detectJpn blocked 0 records
      = (records.map (recordOutput parse detectJpn blocked)).flatten :=
  processFileGo_zero parse detectJpn blocked records 0

theorem processFileGo_cap (parse : List Char → Node) (detectJpn : List Char → Bool)
    (blocked : List (List Char)) (n : Nat) (hn : 0 < n) :
    ∀ (records : List WarcRec) (count : Nat), count < n →
      processFileGo parse detectJpn blocked n count records
        = processFileGo parse detectJpn blocked 0 count (records.take (n - 1 - count)) := by
  intro records
  induction records with
  | nil => intro count _; simp [processFileGo]
  | cons r rs ih =>
    intro count hc
    by_cases hbreak : n ≤ count + 1
    · have : n - 1 - count = 0 := by omega
      rw [this]
      simp only [List.take_zero]
      simp only [processFileGo]
      rw [if_pos ⟨hn, hbreak⟩]
    · have h1 : 1 ≤ n - 1 - count := by omega
      obtain ⟨m, hm⟩ : ∃ m, n - 1 - count = m + 1 := ⟨n - 2 - count, by omega⟩
      rw [hm]
      simp only [List.take_succ_cons, processFileGo]
      rw [if_neg (by omega), if_neg (by simp)]
      rw [ih (count + 1) (by omega)]
      have : n - 1 - (count + 1) = m := by omega
      rw [this]

/-! ### Claim theorems -/

/-- Claim C1, counterexample: a record with a blocked host and an invalid
UTF-8 body is dispatched at the blocklist gate alone — its gate trace
`[blocklist]` is not an initial segment of the specification's order, which
puts the envelope check (UTF-8 decode) first.  Under the claimed order this
record would have been rejected by the envelope gate before the blocklist
was ever consulted. -/
theorem c1_gate_order_counterexample :
    ((processRecord textParse detectTrue blockedHosts recBlockedBad).2).isPrefixOf
      specGateOrder = false := by decide

/-- Claim C1 (amended): the gates run in the fixed order
blocklist → envelope → script/lang → extraction → structural → repetition →
statistical confirmation; every record's gate trace is an initial segment of
that order (so the first rejecting gate ends processing and no later gate
runs), and a kept record has run the full sequence. -/
theorem c1_gate_order (parse : List Char → Node) (detectJpn : List Char → Bool)
    (blocked : List (List Char)) (r : WarcRec) :
    (processRecord parse detectJpn blocked r).2
      = codeGateOrder.take ((processRecord parse detectJpn blocked r).2).length
    ∧ ((processRecord parse detectJpn blocked r).1.isSome = true →
        (processRecord parse detectJpn blocked r).2 = codeGateOrder) :=
  processRecord_trace parse detectJpn blocked r

/-- Witness for C1's amended theorem at a concrete kept record. -/
theorem c1_gate_order_witness :
    (processRecord textParse detectTrue [] recC2).2 = codeGateOrder :=
  (c1_gate_order textParse detectTrue [] recC2).2 (by decide)

/-- Claim C2, counterexample: `recC2`'s payload ひらカタ, whose cleaned text
has no segment longer than `LONG_SENTENCE_LEN`, is kept by the pipeline —
there is no long-sentence filter in the code (`LONG_SENTENCE_LEN` is an
unused constant), so no record is rejected with `NoLongSentence`. -/
theorem c2_no_long_sentence_counterexample :
    utf8Decode recC2.body = some ("HTTP/1.1 200 OK\n\n".data ++ payloadC2)
    ∧ splitEnvelope ("HTTP/1.1 200 OK\n\n".data ++ payloadC2)
        = some ("HTTP/1.1 200 OK".data, payloadC2)
    ∧ hasLongSentence LONG_SENTENCE_LEN (strip_tags textParse payloadC2) = false
    ∧ (processRecord textParse detectTrue [] recC2).1.isSome = true := by decide

/-- Claim C2 (amended): the code contains no long-sentence gate.  A record
whose cleaned text has no segment exceeding `long_sentence_len` is not
rejected on that ground: whenever the gates that do exist (script/lang,
date-list, repetition, statistical confirmation) pass, `process_text` keeps
the record. -/
theorem c2_no_long_sentence (parse : List Char → Node) (detectJpn : List Char → Bool)
    (text : List Char)
    (hlong : hasLongSentence LONG_SENTENCE_LEN (strip_tags parse text) = false)
    (hlang : is_japanese_page_by_lang_regexp text = true)
    (hscript : contains_japanese_text text = true)
    (hdate : countDates (strip_tags parse text) ≤ MONTH_LIST_THRESHOLD)
    (hrep : has_repeating_ngrams (strip_tags parse text) NGRAM_SIZE NGRAM_REPEAT_THRESHOLD = false)
    (hdet : detectJpn ((strip_tags parse text).take DETECT_PREFIX_CHARS) = true) :
    (process_text parse detectJpn text).1 = some (strip_tags parse text) := by
  simp [process_text, hlang, hscript, hrep, hdet, Nat.not_lt.mpr hdate]

/-- Witness for C2's amended theorem at the concrete short-sentence payload. -/
theorem c2_no_long_sentence_witness :
    (process_text textParse detectTrue payloadC2).1 = some (strip_tags textParse payloadC2) :=
  c2_no_long_sentence textParse detectTrue payloadC2 (by decide) (by decide) (by decide)
    (by decide) (by decide) (by decide)

/-- Claim C3, counterexample: for the degenerate 3-token sequence whose
tokens are all equal, repeating it exactly `threshold` times IS flagged (30
equal tokens contain the window three-of-the-same 28 times), refuting the
claim's universal "not flagged at exactly threshold repeats". -/
theorem c3_ngram_threshold_counterexample :
    check_ngram_count (repTriple (0 : Nat) 0 0 NGRAM_REPEAT_THRESHOLD)
      NGRAM_SIZE NGRAM_REPEAT_THRESHOLD = true := by decide

/-- Claim C3 (amended): for every 3-token sequence, repeating it
`threshold + 1` times is flagged by the n-gram counter; and provided the
three tokens are not all equal, repeating it exactly `threshold` times is
not flagged. -/
theorem c3_ngram_threshold {α : Type} [DecidableEq α] (a b c : α) :
    check_ngram_count (repTriple a b c (NGRAM_REPEAT_THRESHOLD + 1))
      NGRAM_SIZE NGRAM_REPEAT_THRESHOLD = true
    ∧ (¬(a = b ∧ b = c) →
      check_ngram_count (repTriple a b c NGRAM_REPEAT_THRESHOLD)
        NGRAM_SIZE NGRAM_REPEAT_THRESHOLD = false) :=
  ⟨check_ngram_repTriple_over a b c, fun hne => check_ngram_repTriple_at hne⟩

/-- Witness for C3's amended theorem at the distinct tokens 0, 1, 2. -/
theorem c3_ngram_threshold_witness :
    check_ngram_count (repTriple (0 : Nat) 1 2 (NGRAM_REPEAT_THRESHOLD + 1))
      NGRAM_SIZE NGRAM_REPEAT_THRESHOLD = true
    ∧ check_ngram_count (repTriple (0 : Nat) 1 2 NGRAM_REPEAT_THRESHOLD)
        NGRAM_SIZE NGRAM_REPEAT_THRESHOLD = false :=
  ⟨(c3_ngram_threshold 0 1 2).1, (c3_ngram_threshold 0 1 2).2 (by decide)⟩

/-- Claim C4: a payload in which fewer than 2 of the 3 Japanese script
ranges occur is rejected at the script gate — `process_text` returns no
text and its trace stops at `Gate.script` — for every parser, every
detector oracle and every payload, hence regardless of what language the
markup declares. -/
theorem c4_script_absent (parse : List Char → Node) (detectJpn : List Char → Bool)
    (text : List Char) (h : contains_japanese_text text = false) :
    (process_text parse detectJpn text).1 = none
    ∧ (process_text parse detectJpn text).2 = [Gate.script] := by
  constructor <;> simp [process_text, h]

/-- Witness for C4 at a payload that even declares `lang=ja`. -/
theorem c4_script_absent_witness :
    (process_text textParse detectTrue ("<html lang=ja><body>hello</body></html>".data)).1 = none
    ∧ (process_text textParse detectTrue
        ("<html lang=ja><body>hello</body></html>".data)).2 = [Gate.script] :=
  c4_script_absent textParse detectTrue _ (by decide)

/-- Claim C5: on markup-free input (the external parser hands back a tree
whose only text is the input), the extractor returns exactly the
whitespace-normalization of the input — its whitespace-delimited words
joined by single spaces — and running the extractor on its own output
returns that output unchanged. -/
theorem c5_extractor_idempotent (s : List Char) :
    stripTagsDom (wrapDoc s) = joinWords (splitOnWs s)
    ∧ stripTagsDom (wrapDoc (stripTagsDom (wrapDoc s))) = stripTagsDom (wrapDoc s) := by
  have h1 : stripTagsDom (wrapDoc s) = wsNorm s := stripTagsDom_wrapDoc s
  constructor
  · rw [h1]
    have hr := joinWords_splitOnWs_of_isNormed (isNormed_wsNorm s)
    rw [← hr, splitOnWs_wsNorm]
  · rw [h1, stripTagsDom_wrapDoc (wsNorm s), wsNorm_idem]

/-- Claim C6: with an unlimited cap the output file is exactly the
concatenation, in order, of the per-record outputs — one block per kept
record and nothing else — and every kept record's block is the fixed-order
metadata header, then the cleaned text produced by `process_text`, then the
constant boundary marker. -/
theorem c6_output_format (parse : List Char → Node) (detectJpn : List Char → Bool)
    (blocked : List (List Char)) :
    (∀ records, processFile parse detectJpn blocked 0 records
        = (records.map (recordOutput parse detectJpn blocked)).flatten)
    ∧ (∀ r out, (processRecord parse detectJpn blocked r).1 = some out →
        ∃ cleaned, (∃ bodyStr hdr payload,
            utf8Decode r.body = some bodyStr
            ∧ splitEnvelope bodyStr = some (hdr, payload)
            ∧ (process_text parse detectJpn payload).1 = some cleaned)
          ∧ out = metaHeader r ++ cleaned ++ boundaryMarker) := by
  constructor
  · intro records
    exact processFile_zero_flatten parse detectJpn blocked records
  · intro r out hout
    simp only [processRecord] at hout
    split at hout
    · simp at hout
    · split at hout
      · simp at hout
      · split at hout
        · simp at hout
        · split at hout
          · simp at hout
          · split at hout
            · simp at hout
            · rename_i bodyStr hdec x3 hdr payload hsp htyp x5 cleaned g hpt
              simp only [Option.some.injEq] at hout
              refine ⟨cleaned, ⟨bodyStr, hdr, payload, hdec, hsp, by rw [hpt]⟩, ?_⟩
              rw [← hout]
              rfl

/-- Witness for C6 at the concrete kept record `recC2`. -/
theorem c6_output_format_witness :
    processFile textParse detectTrue [] 0 [recC2]
      = ([recC2].map (recordOutput textParse detectTrue [])).flatten
    ∧ ∃ cleaned, (∃ bodyStr hdr payload,
          utf8Decode recC2.body = some bodyStr
          ∧ splitEnvelope bodyStr = some (hdr, payload)
          ∧ (process_text textParse detectTrue payload).1 = some cleaned)
        ∧ recordBlock recC2 payloadC2 = metaHeader recC2 ++ cleaned ++ boundaryMarker := by
  constructor
  · exact (c6_output_format textParse detectTrue []).1 [recC2]
  · exact (c6_output_format textParse detectTrue []).2 recC2
      (recordBlock recC2 payloadC2) (by decide)

/-- Claim C7: a record whose body is not valid UTF-8, or has no blank-line
separator, contributes nothing to the output (it is skipped), and the file
output around it is exactly what the remaining records produce — processing
continues with the next record.  The model is a total function, so no
execution path panics. -/
theorem c7_envelope_failure (parse : List Char → Node) (detectJpn : List Char → Bool)
    (blocked : List (List Char)) (r : WarcRec)
    (h : utf8Decode r.body = none
      ∨ ∃ s, utf8Decode r.body = some s ∧ splitEnvelope s = none) :
    (processRecord parse detectJpn blocked r).1 = none
    ∧ ∀ pre post, processFile parse detectJpn blocked 0 (pre ++ r :: post)
        = processFile parse detectJpn blocked 0 pre
          ++ processFile parse detectJpn blocked 0 post := by
  have hnone : (processRecord parse detectJpn blocked r).1 = none := by
    simp only [processRecord]
    split
    · rfl
    · split
      · rfl
      · rename_i bodyStr hdec
        rcases h with h | ⟨s2, hs2, hsp⟩
        · rw [h] at hdec; exact Option.noConfusion hdec
        · rw [hdec] at hs2
          have hsame : bodyStr = s2 := Option.some_inj.mp hs2
          subst hsame
          rw [hsp]
  refine ⟨hnone, ?_⟩
  intro pre post
  simp [processFile_zero_flatten, List.map_append, recordOutput, hnone]

/-- Witness for C7 at the invalid-UTF-8 record between two other records. -/
theorem c7_envelope_failure_witness :
    (processRecord textParse detectTrue [] recBadUtf8).1 = none
    ∧ processFile textParse detectTrue [] 0 ([recC2] ++ recBadUtf8 :: [recC2])
        = processFile textParse detectTrue [] 0 [recC2]
          ++ processFile textParse detectTrue [] 0 [recC2] := by
  have h := c7_envelope_failure textParse detectTrue [] recBadUtf8 (Or.inl (by decide))
  exact ⟨h.1, h.2 [recC2] [recC2]⟩

/-- Claim C8: a record whose URI does not parse, or whose URL has no host
(`host = none`), passes the blocklist gate — processing reaches the envelope
gate; a record whose host exactly matches a blocklist entry is rejected at
the blocklist gate alone, with no HTML parsing (`Gate.extract` never runs). -/
theorem c8_blocklist_gate (parse : List Char → Node) (detectJpn : List Char → Bool)
    (blocked : List (List Char)) (r : WarcRec) :
    (r.host = none → Gate.envelope ∈ (processRecord parse detectJpn blocked r).2)
    ∧ (∀ h, r.host = some h → blocked.contains h = true →
        (processRecord parse detectJpn blocked r).1 = none
        ∧ (processRecord parse detectJpn blocked r).2 = [Gate.blocklist]
        ∧ Gate.extract ∉ (processRecord parse detectJpn blocked r).2) := by
  constructor
  · intro hh
    simp only [processRecord, hh]
    split
    · simp_all
    · split
      · simp
      · split
        · simp
        · split
          · simp
          · split
            · simp
            · simp
  · intro h hh hb
    have hb' : h ∈ blocked := by simpa using hb
    have hp : processRecord parse detectJpn blocked r = (none, [Gate.blocklist]) := by
      simp [processRecord, hh, hb']
    exact ⟨by rw [hp], by rw [hp], by rw [hp]; decide⟩

/-- Witness for C8: a host-less record proceeds past the blocklist; a
blocked-host record is dropped at the blocklist with no extraction. -/
theorem c8_blocklist_gate_witness :
    Gate.envelope ∈ (processRecord textParse detectTrue blockedHosts recBadUtf8).2
    ∧ ((processRecord textParse detectTrue blockedHosts recBlockedBad).1 = none
      ∧ (processRecord textParse detectTrue blockedHosts recBlockedBad).2 = [Gate.blocklist]
      ∧ Gate.extract ∉ (processRecord textParse detectTrue blockedHosts recBlockedBad).2) := by
  constructor
  · exact (c8_blocklist_gate textParse detectTrue blockedHosts recBadUtf8).1 rfl
  · exact (c8_blocklist_gate textParse detectTrue blockedHosts recBlockedBad).2
      ("blocked.example.com".data) rfl (by decide)

/-- Claim C9: when the language-attribute regex captures a value that does
not start with "ja" (case-insensitively), `process_text` rejects at the
script/lang gate and the extractor gate never runs; when there is no
capture, the language-attribute check passes. -/
theorem c9_lang_attribute (parse : List Char → Node) (detectJpn : List Char → Bool)
    (text : List Char) :
    (∀ v, langCapture text = some v →
        (['j', 'a'].isPrefixOf (v.map Char.toLower)) = false →
        (process_text parse detectJpn text).1 = none
        ∧ Gate.extract ∉ (process_text parse detectJpn text).2)
    ∧ (langCapture text = none → is_japanese_page_by_lang_regexp text = true) := by
  constructor
  · intro v hv hja
    have hlang : is_japanese_page_by_lang_regexp text = false := by
      unfold is_japanese_page_by_lang_regexp
      rw [hv]
      exact hja
    constructor <;> simp [process_text, hlang]
  · intro hn
    unfold is_japanese_page_by_lang_regexp
    rw [hn]

/-- Witness for C9: an English page is rejected before extraction; a page
with no `<html lang=...>` attribute passes the language check. -/
theorem c9_lang_attribute_witness :
    ((process_text textParse detectTrue payloadEn).1 = none
      ∧ Gate.extract ∉ (process_text textParse detectTrue payloadEn).2)
    ∧ is_japanese_page_by_lang_regexp ("no html tag here".data) = true := by
  constructor
  · exact (c9_lang_attribute textParse detectTrue payloadEn).1 ("en".data)
      (by decide) (by decide)
  · exact (c9_lang_attribute textParse detectTrue ("no html tag here".data)).2 (by decide)

/-- Claim C10: with a positive cap `n` the per-file loop stops when the
running record count reaches `n`, before examining the `n`-th record, so the
output is exactly that of the first `n - 1` records; with cap 0 every record
is processed (unlimited). -/
theorem c10_record_cap (parse : List Char → Node) (detectJpn : List Char → Bool)
    (blocked : List (List Char)) (n : Nat) (records : List WarcRec) (hn : 0 < n) :
    processFile parse detectJpn blocked n records
      = processFile parse detectJpn blocked 0 (records.take (n - 1))
    ∧ processFile parse detectJpn blocked 0 records
      = (records.map (recordOutput parse detectJpn blocked)).flatten := by
  constructor
  · unfold processFile
    have h := processFileGo_cap parse detectJpn blocked n hn records 0 hn
    simpa using h
  · exact processFile_zero_flatten parse detectJpn blocked records

/-- Witness for C10 at cap 2 over three records: only the first is examined. -/
theorem c10_record_cap_witness :
    processFile textParse detectTrue [] 2 [recBadUtf8, recBadUtf8, recBadUtf8]
      = processFile textParse detectTrue [] 0
          ([recBadUtf8, recBadUtf8, recBadUtf8].take (2 - 1)) :=
  (c10_record_cap textParse detectTrue [] 2 [recBadUtf8, recBadUtf8, recBadUtf8]
    (by decide)).1
end CcParser
